import Mathlib

/-!
Verification development for the pandas_duplication_checker lead-list
pipeline.  The repository's documentation describes four core components:
a region validator for DACH phone numbers, a phone-candidate resolver, a
dedup selector, and a pitch-text excerpt extractor; the repository also
ships a notebook (`notebooks/comparison_dupe.ipynb`) whose pandas code
performs an internal URL dedup followed by a cross-file URL partition.
The scripts named by the README (`filter_phone_numbers.py`,
`single_dedupe.py`, `extract_pitch_text.py`) are not present in the
source tree, so the corresponding components are modelled from the
design specification; the notebook code is embedded directly.
-/

namespace LeadPipeline

/-- Dialing regions targeted by the pipeline (the DACH set). -/
inductive Region
  | DE
  | AT
  | CH
deriving DecidableEq, Repr

/-- A successful region classification: the normalized dial string and
its region tag. -/
structure Validated where
  normalized : String
  region : Region
deriving DecidableEq, Repr

/-- Keep only dialing characters: digits and the plus sign. -/
def stripNonDialing (s : String) : List Char :=
  s.data.filter (fun c => c.isDigit || c == '+')

/-- Modelled from the spec: the character-level core of
RegionValidator.classify (the script implementing it,
`filter_phone_numbers.py`, is absent from the source tree).  After
stripping, a string validates exactly when it is a plus sign, one of the
country codes 49/41/43, and digits only thereafter. -/
def classifyChars : List Char → Option Validated
  | '+' :: '4' :: '9' :: rest =>
      if rest.all Char.isDigit then
        some ⟨⟨'+' :: '4' :: '9' :: rest⟩, Region.DE⟩
      else none
  | '+' :: '4' :: '1' :: rest =>
      if rest.all Char.isDigit then
        some ⟨⟨'+' :: '4' :: '1' :: rest⟩, Region.CH⟩
      else none
  | '+' :: '4' :: '3' :: rest =>
      if rest.all Char.isDigit then
        some ⟨⟨'+' :: '4' :: '3' :: rest⟩, Region.AT⟩
      else none
  | _ => none

/-- Modelled from the spec: RegionValidator.classify.  Strips
non-dialing characters, then recognizes a leading `+49`/`+41`/`+43`
country code with digits only thereafter; `none` is the spec's
`Rejected`. -/
def classify (raw : String) : Option Validated :=
  classifyChars (stripNonDialing raw)

/-- Whether a stripped dial string begins with one of the three
recognized DACH country codes. -/
def hasRegionCode : List Char → Bool
  | '+' :: '4' :: '9' :: _ => true
  | '+' :: '4' :: '1' :: _ => true
  | '+' :: '4' :: '3' :: _ => true
  | _ => false

/-- Normalize a raw phone value the same way the validator does (strip
non-dialing characters); used when matching against the exclusion set. -/
def normalizePhone (s : String) : String :=
  ⟨stripNonDialing s⟩

/-- Lower-case each character of a list. -/
def lowerChars (l : List Char) : List Char :=
  l.map Char.toLower

/-- `headMatches needle hay` is true when `needle` occurs at the very
head of `hay`. -/
def headMatches : List Char → List Char → Bool
  | [], _ => true
  | _ :: _, [] => false
  | a :: as, b :: bs => a == b && headMatches as bs

/-- `containsSeq needle hay` is true when `needle` occurs contiguously
anywhere inside `hay`. -/
def containsSeq (needle : List Char) : List Char → Bool
  | [] => needle.isEmpty
  | c :: t => headMatches needle (c :: t) || containsSeq needle t

/-- A type label marks a fax line when it contains the case-insensitive
substring "fax" (which also covers "telefax"). -/
def isFaxLabel (t : String) : Bool :=
  containsSeq ['f', 'a', 'x'] (lowerChars t.data)

/-- One phone candidate drawn from a record's candidate columns: its raw
value, its type label and a representative source URL. -/
structure Candidate where
  value : String
  typeLabel : String
  sourceUrl : String
deriving DecidableEq, Repr

/-- One input row, restricted to the fields the core components read:
the five candidate phone columns in priority order
(`Top_Number_1..3`, `MainOffice_Number`, `PhoneNumber_Found`), the
other-organization exclusion list, the dedup identity fields, and the
sales-pitch text. -/
structure LeadRecord where
  top1 : Candidate
  top2 : Candidate
  top3 : Candidate
  mainOffice : Candidate
  found : Candidate
  otherOrgNumbers : List String
  companyName : String
  canonicalEntryURL : String
  givenURL : String
  salesPitch : String
deriving DecidableEq, Repr

/-- The candidate columns in the fixed priority order the resolver
consults them. -/
def candidates (r : LeadRecord) : List Candidate :=
  [r.top1, r.top2, r.top3, r.mainOffice, r.found]

/-- The record's exclusion set, with each entry normalized the same way
candidate values are before comparison. -/
def exclSet (r : LeadRecord) : List String :=
  r.otherOrgNumbers.map normalizePhone

/-- A candidate passes when it is not fax-typed, its normalized value is
not in the exclusion set, and it validates to a target region. -/
def goodCand (excl : List String) (c : Candidate) : Bool :=
  !isFaxLabel c.typeLabel
    && !decide (normalizePhone c.value ∈ excl)
    && (classify c.value).isSome

/-- Terminal status of phone resolution for one record. -/
inductive CallStatus
  | Selected
  | NoDachNumber
deriving DecidableEq, Repr

/-- The resolver's output for one record. -/
structure ResolvedCall where
  selected_number : String
  selected_type : String
  selected_source_url : String
  region : Option Region
  status : CallStatus
deriving DecidableEq, Repr

/-- Modelled from the spec: the candidate loop of
PhoneCandidateResolver.resolve (the script implementing it is absent
from the source tree).  Walks the candidates in priority order,
skipping fax-typed candidates, excluded values, and values the region
validator rejects; the first candidate that survives all three checks
is selected and resolution stops. -/
def resolveFrom (excl : List String) : List Candidate → Option (Candidate × Validated)
  | [] => none
  | c :: cs =>
      if isFaxLabel c.typeLabel then resolveFrom excl cs
      else if decide (normalizePhone c.value ∈ excl) then resolveFrom excl cs
      else
        match classify c.value with
        | some v => some (c, v)
        | none => resolveFrom excl cs

/-- Modelled from the spec: PhoneCandidateResolver.resolve.  If some
candidate survives, the resolved call carries its normalized number,
type label, source URL and region; otherwise the record terminates with
`NoDachNumber` and an empty number. -/
def resolve (r : LeadRecord) : ResolvedCall :=
  match resolveFrom (exclSet r) (candidates r) with
  | some (c, v) => ⟨v.normalized, c.typeLabel, c.sourceUrl, some v.region, CallStatus.Selected⟩
  | none => ⟨"", "", "", none, CallStatus.NoDachNumber⟩

/-- A record used for concrete witnesses: its first candidate is a
fax-typed DACH number, its second a valid Swiss number. -/
def wCand1 : Candidate := ⟨"+49 30 1234567", "Fax", "u1"⟩

/-- Second witness candidate: a valid Swiss business number. -/
def wCand2 : Candidate := ⟨"+41 44 1112233", "Sales", "u2"⟩

/-- An empty candidate column. -/
def emptyCand : Candidate := ⟨"", "", ""⟩

/-- Witness record: fax first candidate, valid second candidate. -/
def wRec1 : LeadRecord :=
  ⟨wCand1, wCand2, emptyCand, emptyCand, emptyCand, [],
    "Acme GmbH", "https://www.acme.de/", "", ""⟩

/-- Collect the words of a character list (maximal runs of
non-whitespace), reversing the accumulator on emission. -/
def wordsAux (acc : List Char) : List Char → List (List Char)
  | [] => if acc.isEmpty then [] else [acc.reverse]
  | c :: t =>
      if c.isWhitespace then
        if acc.isEmpty then wordsAux [] t else acc.reverse :: wordsAux [] t
      else wordsAux (c :: acc) t

/-- Join words with single spaces. -/
def joinWords : List (List Char) → List Char
  | [] => []
  | [w] => w
  | w :: ws => w ++ ' ' :: joinWords ws

/-- Modelled from the spec: company-name normalization for the dedup
key (the script implementing it, `single_dedupe.py`, is absent from the
source tree): lower-case and whitespace-collapse. -/
def normName (s : String) : String :=
  ⟨joinWords (wordsAux [] (lowerChars s.data))⟩

/-- Remove `pre` from the head of `l` when it occurs there. -/
def stripHead (pre l : List Char) : List Char :=
  if headMatches pre l then l.drop pre.length else l

/-- Remove one trailing slash. -/
def dropTrailingSlash (l : List Char) : List Char :=
  match l.getLast? with
  | some '/' => l.dropLast
  | _ => l

/-- Modelled from the spec: URL normalization for the dedup key — strip
the scheme, a `www.` marker and a trailing slash. -/
def normUrl (s : String) : String :=
  ⟨dropTrailingSlash
    (stripHead "www.".data (stripHead "http://".data (stripHead "https://".data s.data)))⟩

/-- Derived identity of a record: normalized company name plus
normalized URL. -/
structure DedupKey where
  name : String
  url : String
deriving DecidableEq, Repr

/-- Modelled from the spec: the dedup key of a record uses the
canonical URL when present, the given URL otherwise. -/
def dedupKey (r : LeadRecord) : DedupKey :=
  ⟨normName r.companyName,
    normUrl (if r.canonicalEntryURL = "" then r.givenURL else r.canonicalEntryURL)⟩

/-- Pair each record with its original row index, starting at `i`. -/
def indexFrom (i : Nat) : List LeadRecord → List (Nat × LeadRecord)
  | [] => []
  | r :: t => (i, r) :: indexFrom (i + 1) t

/-- Whether an indexed record resolved to a non-empty number. -/
def hasNum (p : Nat × LeadRecord) : Bool :=
  !decide ((resolve p.2).selected_number = "")

/-- The indexed records whose dedup key is `k`, in input order. -/
def withKey (k : DedupKey) (l : List (Nat × LeadRecord)) : List (Nat × LeadRecord) :=
  l.filter (fun q => decide (dedupKey q.2 = k))

/-- Modelled from the spec: the representative of the group of key `k`
— the earliest group member with a resolved number, or the earliest
group member when none has one. -/
def chosenOf (k : DedupKey) (l : List (Nat × LeadRecord)) : Option (Nat × LeadRecord) :=
  match (withKey k l).find? hasNum with
  | some q => some q
  | none => (withKey k l).head?

/-- Row index of the group representative (0 when the group is empty,
which cannot happen for keys of records in `l`). -/
def chosenIdx (k : DedupKey) (l : List (Nat × LeadRecord)) : Nat :=
  match chosenOf k l with
  | some q => q.1
  | none => 0

/-- A removed duplicate: the record itself, the key it collided on, and
the row index of the kept record it lost to. -/
structure RemovedRecord where
  record : Nat × LeadRecord
  key : DedupKey
  keptIdx : Nat
deriving DecidableEq, Repr

/-- The indexed records that are the representative of their own
group. -/
def keptRecords (l : List (Nat × LeadRecord)) : List (Nat × LeadRecord) :=
  l.filter (fun p => decide (chosenOf (dedupKey p.2) l = some p))

/-- The indexed records beaten by their group representative, tagged
with the collided key and the representative's row index. -/
def removedRecords (l : List (Nat × LeadRecord)) : List RemovedRecord :=
  (l.filter (fun p => !decide (chosenOf (dedupKey p.2) l = some p))).map
    (fun p => ⟨p, dedupKey p.2, chosenIdx (dedupKey p.2) l⟩)

/-- Modelled from the spec: DedupSelector.dedupe — split the indexed
input rows into the kept representative of each dedup group and the
removed duplicates tagged for the audit log. -/
def dedupe (rs : List LeadRecord) : List (Nat × LeadRecord) × List RemovedRecord :=
  (keptRecords (indexFrom 0 rs), removedRecords (indexFrom 0 rs))

/-- The removed records tagged with key `k`. -/
def removedWithKey (k : DedupKey) (rems : List RemovedRecord) : List RemovedRecord :=
  rems.filter (fun rm => decide (rm.key = k))

/-- Modelled from the spec: the caller-specified policy deciding
whether rows whose resolution ended in `NoDachNumber` are dropped or
retained with an empty phone; the pipeline itself never hard-codes the
drop. -/
def applyNoDachPolicy (dropNoDach : Bool) (rows : List LeadRecord) : List LeadRecord :=
  if dropNoDach then
    rows.filter (fun r => !decide ((resolve r).status = CallStatus.NoDachNumber))
  else rows

/-- Witness record A: shares a dedup group with `wRecB` but resolves no
number. -/
def wRecA : LeadRecord :=
  ⟨emptyCand, emptyCand, emptyCand, emptyCand, emptyCand, [],
    "Acme GmbH", "https://www.acme.de/", "", ""⟩

/-- Witness record B: same dedup key as `wRecA`, with a valid German
number. -/
def wRecB : LeadRecord :=
  ⟨⟨"+49 30 555", "Main Office", "u3"⟩, emptyCand, emptyCand, emptyCand, emptyCand,
    [], "ACME  gmbh", "", "acme.de", ""⟩

/-- The dedup key shared by `wRecA` and `wRecB`. -/
def wKey : DedupKey := ⟨"acme gmbh", "acme.de"⟩

/-- Trim whitespace from both ends of a character list. -/
def trimChars (l : List Char) : List Char :=
  ((l.dropWhile Char.isWhitespace).reverse.dropWhile Char.isWhitespace).reverse

/-- Index of the first occurrence of `needle` in a character list, or
`none` when it does not occur. -/
def findSub (needle : List Char) : List Char → Option Nat
  | [] => if needle.isEmpty then some 0 else none
  | c :: t =>
      if headMatches needle (c :: t) then some 0
      else (findSub needle t).map (fun n => n + 1)

/-- Modelled from the spec: the excerpt half of ExcerptExtractor.extract
(the script implementing it, `extract_pitch_text.py`, is absent from
the source tree).  Locate the first occurrence of the start marker,
search after it for the first occurrence of the end marker, and return
the trimmed text strictly between them; empty when either search
fails. -/
def extractExcerpt (startM endM text : List Char) : List Char :=
  match findSub startM text with
  | none => []
  | some i =>
      match findSub endM (text.drop (i + startM.length)) with
      | none => []
      | some j => trimChars ((text.drop (i + startM.length)).take j)

/-- Digits to a natural number, most significant first. -/
def digitsToNat (l : List Char) : Nat :=
  l.foldl (fun acc c => acc * 10 + (c.toNat - 48)) 0

/-- Modelled from the spec: the first integer matched by the pattern
"<integer> Leads" — a digit run, then whitespace, then the literal
`Leads`. -/
def leadCount : List Char → Option Nat
  | [] => none
  | c :: t =>
      if !((c :: t).takeWhile Char.isDigit).isEmpty
          && !(((c :: t).dropWhile Char.isDigit).takeWhile Char.isWhitespace).isEmpty
          && headMatches ['L', 'e', 'a', 'd', 's']
            (((c :: t).dropWhile Char.isDigit).dropWhile Char.isWhitespace) then
        some (digitsToNat ((c :: t).takeWhile Char.isDigit))
      else leadCount t

/-- The extractor's output: the trimmed excerpt and the lead count. -/
structure ExcerptResult where
  excerpt : String
  count : Option Nat
deriving DecidableEq, Repr

/-- Modelled from the spec: ExcerptExtractor.extract over strings. -/
def extract (startM endM text : String) : ExcerptResult :=
  ⟨⟨extractExcerpt startM.data endM.data text.data⟩, leadCount text.data⟩

/-- One row of a notebook dataframe: its URL column and the remaining
columns as opaque strings. -/
structure NotebookRow where
  url : String
  rest : List String
deriving DecidableEq, Repr

/-- Recursion behind `drop_duplicates`: keep a row when its URL has not
been seen yet. -/
def ddAux (seen : List String) : List NotebookRow → List NotebookRow
  | [] => []
  | r :: t =>
      if decide (r.url ∈ seen) then ddAux seen t
      else r :: ddAux (r.url :: seen) t

/-- From notebook cell ca87e979: `df.drop_duplicates(subset=["URL"])` —
keep the first row bearing each URL value, in row order. -/
def drop_duplicates (rows : List NotebookRow) : List NotebookRow :=
  ddAux [] rows

/-- The URL column of a frame. -/
def urlsOf (rows : List NotebookRow) : List String :=
  rows.map (fun r => r.url)

/-- From notebook cell ca87e979: rows of the target frame whose URL
occurs in the reference frame's URL column
(`df_getting_changed[df_getting_changed["URL"].isin(df_compared_to["URL"])]`). -/
def matching_urls (dfA dfB : List NotebookRow) : List NotebookRow :=
  dfA.filter (fun r => decide (r.url ∈ urlsOf dfB))

/-- From notebook cell ca87e979: the cleaned result — rows of the
target frame whose URL does not occur in the reference frame. -/
def df_result (dfA dfB : List NotebookRow) : List NotebookRow :=
  dfA.filter (fun r => !decide (r.url ∈ urlsOf dfB))

/-- Notebook witness row with URL `a.de`. -/
def wRow1 : NotebookRow := ⟨"a.de", []⟩

/-- Notebook witness row with URL `b.de`. -/
def wRow2 : NotebookRow := ⟨"b.de", []⟩

theorem classifyChars_shape (l : List Char) (v : Validated)
    (h : classifyChars l = some v) :
    ∃ rest : List Char, rest.all Char.isDigit = true ∧
      ((v.normalized = ⟨'+' :: '4' :: '9' :: rest⟩ ∧ v.region = Region.DE) ∨
       (v.normalized = ⟨'+' :: '4' :: '1' :: rest⟩ ∧ v.region = Region.CH) ∨
       (v.normalized = ⟨'+' :: '4' :: '3' :: rest⟩ ∧ v.region = Region.AT)) := by
  unfold classifyChars at h
  split at h <;> try exact Option.noConfusion h
  all_goals
    split at h
    case isFalse => exact Option.noConfusion h
    case isTrue hall =>
      cases h
      refine ⟨_, hall, ?_⟩
      first
        | exact Or.inl ⟨rfl, rfl⟩
        | exact Or.inr (Or.inl ⟨rfl, rfl⟩)
        | exact Or.inr (Or.inr ⟨rfl, rfl⟩)

theorem classify_shape (s : String) (v : Validated) (h : classify s = some v) :
    ∃ rest : List Char, rest.all Char.isDigit = true ∧
      ((v.normalized = ⟨'+' :: '4' :: '9' :: rest⟩ ∧ v.region = Region.DE) ∨
       (v.normalized = ⟨'+' :: '4' :: '1' :: rest⟩ ∧ v.region = Region.CH) ∨
       (v.normalized = ⟨'+' :: '4' :: '3' :: rest⟩ ∧ v.region = Region.AT)) :=
  classifyChars_shape _ v h

theorem classify_normalized (s : String) (v : Validated) (h : classify s = some v) :
    v.normalized = normalizePhone s := by
  unfold classify at h
  unfold normalizePhone
  revert h
  generalize stripNonDialing s = l
  intro h
  unfold classifyChars at h
  split at h <;> try exact Option.noConfusion h
  all_goals
    split at h
    case isFalse => exact Option.noConfusion h
    case isTrue => cases h; rfl

theorem classify_some_ne_empty (s : String) (v : Validated)
    (h : classify s = some v) : v.normalized ≠ "" := by
  obtain ⟨rest, -, hs⟩ := classify_shape s v h
  rcases hs with ⟨h1, -⟩ | ⟨h1, -⟩ | ⟨h1, -⟩ <;>
    · rw [h1]
      intro hc
      exact List.noConfusion (congrArg String.data hc)

theorem classifyChars_plus_in_tail (t : List Char) (hp : '+' ∈ t) :
    classifyChars ('+' :: t) = none := by
  unfold classifyChars
  split <;> try rfl
  all_goals
    rename_i rest heq
    injection heq with h1 h2
    subst h2
    simp only [List.mem_cons] at hp
    rcases hp with hp | hp | hp
    · exact absurd hp (by decide)
    · exact absurd hp (by decide)
    · cases hall : rest.all Char.isDigit with
      | false => simp [hall]
      | true =>
          have hdig : ('+' : Char).isDigit := by
            have := List.all_eq_true.mp hall
            simpa using this '+' hp
          exact absurd hdig (by decide)

theorem classifyChars_no_code (l : List Char) (h : hasRegionCode l = false) :
    classifyChars l = none := by
  unfold classifyChars
  split <;> try rfl
  all_goals simp [hasRegionCode] at h

/-- C4: RegionValidator.classify is total — on every string it returns
either a success value or `none` (the spec's `Rejected`); the empty
string, strings with a stray plus after the country code, and strings
whose code is outside the three target regions are all rejected. -/
theorem classify_total :
    (∀ s : String, (∃ v, classify s = some v) ∨ classify s = none) ∧
    classify "" = none ∧
    (∀ (s : String) (t : List Char), stripNonDialing s = '+' :: t → '+' ∈ t →
      classify s = none) ∧
    (∀ s : String, hasRegionCode (stripNonDialing s) = false → classify s = none) := by
  refine ⟨?_, by decide, ?_, ?_⟩
  · intro s
    cases h : classify s with
    | some v => exact Or.inl ⟨v, rfl⟩
    | none => exact Or.inr rfl
  · intro s t hstrip hp
    unfold classify
    rw [hstrip]
    exact classifyChars_plus_in_tail t hp
  · intro s h
    exact classifyChars_no_code _ h

/-- Witness for `classify_total` at concrete malformed inputs: a stray
plus after the code and a non-DACH country code. -/
theorem classify_total_witness :
    stripNonDialing "+49+30" = '+' :: ['4', '9', '+', '3', '0'] ∧
    ('+' : Char) ∈ ['4', '9', '+', '3', '0'] ∧
    classify "+49+30" = none ∧
    hasRegionCode (stripNonDialing "+7123") = false ∧
    classify "+7123" = none :=
  ⟨by decide, by decide,
    classify_total.2.2.1 "+49+30" ['4', '9', '+', '3', '0'] (by decide) (by decide),
    by decide,
    classify_total.2.2.2 "+7123" (by decide)⟩

theorem resolveFrom_skip (excl : List String) (c : Candidate) (cs : List Candidate)
    (h : goodCand excl c = false) :
    resolveFrom excl (c :: cs) = resolveFrom excl cs := by
  by_cases hf : isFaxLabel c.typeLabel
  · simp [resolveFrom, hf]
  · by_cases he : normalizePhone c.value ∈ excl
    · simp [resolveFrom, hf, he]
    · cases hcl : classify c.value with
      | some v => simp [goodCand, hf, he, hcl] at h
      | none => simp [resolveFrom, hf, he, hcl]

theorem resolveFrom_select (excl : List String) (c : Candidate) (cs : List Candidate)
    (v : Validated) (hg : goodCand excl c = true) (hv : classify c.value = some v) :
    resolveFrom excl (c :: cs) = some (c, v) := by
  simp only [goodCand, Bool.and_eq_true, Bool.not_eq_true'] at hg
  obtain ⟨⟨h1, h2⟩, -⟩ := hg
  simp [resolveFrom, h1, h2, hv, of_decide_eq_false h2]

theorem resolveFrom_first_good (excl : List String) (pre : List Candidate)
    (c : Candidate) (post : List Candidate)
    (hpre : ∀ c' ∈ pre, goodCand excl c' = false)
    (hc : goodCand excl c = true) :
    ∃ v, classify c.value = some v ∧
      resolveFrom excl (pre ++ c :: post) = some (c, v) := by
  induction pre with
  | nil =>
      have h3 : (classify c.value).isSome = true := by
        simp only [goodCand, Bool.and_eq_true] at hc
        exact hc.2
      obtain ⟨v, hv⟩ := Option.isSome_iff_exists.mp h3
      exact ⟨v, hv, by simpa using resolveFrom_select excl c post v hc hv⟩
  | cons a pre ih =>
      obtain ⟨v, hv, hres⟩ := ih (fun c' hm => hpre c' (List.mem_cons_of_mem a hm))
      refine ⟨v, hv, ?_⟩
      rw [List.cons_append, resolveFrom_skip excl a _ (hpre a (List.mem_cons_self a pre))]
      exact hres

theorem resolveFrom_good_of_some (excl : List String) (cs : List Candidate)
    (c : Candidate) (v : Validated) (h : resolveFrom excl cs = some (c, v)) :
    goodCand excl c = true ∧ classify c.value = some v ∧ c ∈ cs := by
  induction cs with
  | nil => exact absurd h (by simp [resolveFrom])
  | cons a t ih =>
      unfold resolveFrom at h
      split at h
      · obtain ⟨hg, hv, hm⟩ := ih h
        exact ⟨hg, hv, List.mem_cons_of_mem a hm⟩
      · split at h
        · obtain ⟨hg, hv, hm⟩ := ih h
          exact ⟨hg, hv, List.mem_cons_of_mem a hm⟩
        · rename_i hf he
          split at h
          · rename_i v' heq
            simp only [Option.some.injEq, Prod.mk.injEq] at h
            obtain ⟨rfl, rfl⟩ := h
            refine ⟨?_, heq, List.mem_cons_self a t⟩
            simp [goodCand, hf, he, heq]
          · obtain ⟨hg, hv, hm⟩ := ih h
            exact ⟨hg, hv, List.mem_cons_of_mem a hm⟩

/-- C1: the resolver selects exactly the highest-priority candidate that
is not fax-typed, not excluded, and validates to a target region; every
earlier candidate fails those checks, so a lower-priority valid
candidate is never selected.  The selected number is the validator's
normalized form of that candidate column's value. -/
theorem priority_invariant (r : LeadRecord) (pre post : List Candidate) (c : Candidate)
    (hsplit : candidates r = pre ++ c :: post)
    (hpre : ∀ c' ∈ pre, goodCand (exclSet r) c' = false)
    (hc : goodCand (exclSet r) c = true) :
    ∃ v, classify c.value = some v ∧
      (resolve r).selected_number = v.normalized ∧
      (resolve r).selected_type = c.typeLabel ∧
      (resolve r).selected_source_url = c.sourceUrl ∧
      (resolve r).status = CallStatus.Selected := by
  obtain ⟨v, hv, hres⟩ := resolveFrom_first_good (exclSet r) pre c post hpre hc
  refine ⟨v, hv, ?_⟩
  unfold resolve
  rw [hsplit, hres]
  exact ⟨rfl, rfl, rfl, rfl⟩

/-- Witness for `priority_invariant`: on `wRec1` the fax-typed first
candidate is skipped and the valid second candidate is selected. -/
theorem priority_invariant_witness :
    candidates wRec1 = [wCand1] ++ wCand2 :: [emptyCand, emptyCand, emptyCand] ∧
    (∀ c' ∈ [wCand1], goodCand (exclSet wRec1) c' = false) ∧
    goodCand (exclSet wRec1) wCand2 = true ∧
    ∃ v, classify wCand2.value = some v ∧
      (resolve wRec1).selected_number = v.normalized ∧
      (resolve wRec1).selected_type = wCand2.typeLabel ∧
      (resolve wRec1).selected_source_url = wCand2.sourceUrl ∧
      (resolve wRec1).status = CallStatus.Selected :=
  ⟨rfl, by decide, by decide,
    priority_invariant wRec1 [wCand1] [emptyCand, emptyCand, emptyCand] wCand2
      rfl (by decide) (by decide)⟩

/-- C2: a resolved (non-empty) selected number is never one of the
record's normalized other-organization exclusion values. -/
theorem exclusion_invariant (r : LeadRecord)
    (h : (resolve r).selected_number ≠ "") :
    (resolve r).selected_number ∉ exclSet r := by
  cases hres : resolveFrom (exclSet r) (candidates r) with
  | none =>
      exfalso
      apply h
      unfold resolve
      rw [hres]
  | some cv =>
      obtain ⟨c, v⟩ := cv
      obtain ⟨hg, hv, -⟩ := resolveFrom_good_of_some (exclSet r) (candidates r) c v hres
      unfold resolve
      rw [hres]
      show v.normalized ∉ exclSet r
      rw [classify_normalized c.value v hv]
      simp only [goodCand, Bool.and_eq_true, Bool.not_eq_true'] at hg
      exact of_decide_eq_false hg.1.2

/-- Witness for `exclusion_invariant` at the concrete record `wRec1`. -/
theorem exclusion_invariant_witness :
    (resolve wRec1).selected_number ≠ "" ∧
    (resolve wRec1).selected_number ∉ exclSet wRec1 :=
  ⟨by decide, exclusion_invariant wRec1 (by decide)⟩

/-- C3: every non-empty resolved number starts with `+49`, `+41` or
`+43`, continues with digits only, and the resolved region is the one
matching that country-code prefix. -/
theorem region_invariant (r : LeadRecord)
    (h : (resolve r).selected_number ≠ "") :
    ∃ rest : List Char, rest.all Char.isDigit = true ∧
      (((resolve r).selected_number = ⟨'+' :: '4' :: '9' :: rest⟩ ∧
          (resolve r).region = some Region.DE) ∨
       ((resolve r).selected_number = ⟨'+' :: '4' :: '1' :: rest⟩ ∧
          (resolve r).region = some Region.CH) ∨
       ((resolve r).selected_number = ⟨'+' :: '4' :: '3' :: rest⟩ ∧
          (resolve r).region = some Region.AT)) := by
  cases hres : resolveFrom (exclSet r) (candidates r) with
  | none =>
      exfalso
      apply h
      unfold resolve
      rw [hres]
  | some cv =>
      obtain ⟨c, v⟩ := cv
      obtain ⟨-, hv, -⟩ := resolveFrom_good_of_some (exclSet r) (candidates r) c v hres
      obtain ⟨rest, hall, hshape⟩ := classify_shape c.value v hv
      refine ⟨rest, hall, ?_⟩
      unfold resolve
      rw [hres]
      rcases hshape with ⟨h1, h2⟩ | ⟨h1, h2⟩ | ⟨h1, h2⟩
      · exact Or.inl ⟨h1, by show some v.region = _; rw [h2]⟩
      · exact Or.inr (Or.inl ⟨h1, by show some v.region = _; rw [h2]⟩)
      · exact Or.inr (Or.inr ⟨h1, by show some v.region = _; rw [h2]⟩)

theorem indexFrom_le_fst (rs : List LeadRecord) (i : Nat) (p : Nat × LeadRecord)
    (h : p ∈ indexFrom i rs) : i ≤ p.1 := by
  induction rs generalizing i with
  | nil => simp [indexFrom] at h
  | cons r t ih =>
      simp only [indexFrom, List.mem_cons] at h
      rcases h with rfl | h
      · exact Nat.le_refl i
      · exact Nat.le_of_succ_le (ih (i + 1) h)

theorem indexFrom_nodup (rs : List LeadRecord) (i : Nat) : (indexFrom i rs).Nodup := by
  induction rs generalizing i with
  | nil => simp [indexFrom]
  | cons r t ih =>
      refine List.Nodup.cons ?_ (ih (i + 1))
      intro hmem
      exact Nat.not_succ_le_self i (indexFrom_le_fst t (i + 1) (i, r) hmem)

theorem indexFrom_length (rs : List LeadRecord) (i : Nat) :
    (indexFrom i rs).length = rs.length := by
  induction rs generalizing i with
  | nil => rfl
  | cons r t ih => simp [indexFrom, ih]

theorem filter_eq_singleton_of_nodup {α : Type} [DecidableEq α] (l : List α) (a : α)
    (hnd : l.Nodup) (ha : a ∈ l) :
    l.filter (fun x => decide (x = a)) = [a] := by
  induction l with
  | nil => simp at ha
  | cons b t ih =>
      rcases List.mem_cons.mp ha with rfl | ha'
      · have ht : t.filter (fun x => decide (x = a)) = [] := by
          rw [List.filter_eq_nil_iff]
          intro x hx
          simp only [decide_eq_true_eq]
          exact fun hxa => (List.Nodup.not_mem hnd) (hxa ▸ hx)
        simp [List.filter_cons, ht]
      · have hb : b ≠ a := fun hba => (List.Nodup.not_mem hnd) (hba ▸ ha')
        simp [List.filter_cons, hb, ih (List.Nodup.of_cons hnd) ha']

theorem length_filter_not_of_nodup {α : Type} [DecidableEq α] (l : List α) (a : α)
    (hnd : l.Nodup) (ha : a ∈ l) :
    (l.filter (fun x => !decide (x = a))).length = l.length - 1 := by
  induction l with
  | nil => simp at ha
  | cons b t ih =>
      rcases List.mem_cons.mp ha with rfl | ha'
      · have ht : t.filter (fun x => !decide (x = a)) = t := by
          rw [List.filter_eq_self]
          intro x hx
          simp only [Bool.not_eq_true', decide_eq_false_iff_not]
          exact fun hxa => (List.Nodup.not_mem hnd) (hxa ▸ hx)
        simp [List.filter_cons, ht]
      · have hb : b ≠ a := fun hba => (List.Nodup.not_mem hnd) (hba ▸ ha')
        have hpos : 1 ≤ t.length := List.length_pos.mpr (List.ne_nil_of_mem ha')
        have hih := ih (List.Nodup.of_cons hnd) ha'
        simp [List.filter_cons, hb, hih]
        omega

theorem length_filter_add_not {α : Type} (p : α → Bool) (l : List α) :
    (l.filter p).length + (l.filter (fun a => !p a)).length = l.length := by
  induction l with
  | nil => rfl
  | cons a t ih =>
      cases h : p a <;> simp [List.filter_cons, h] <;> omega

theorem withKey_key (k : DedupKey) (l : List (Nat × LeadRecord))
    (q : Nat × LeadRecord) (h : q ∈ withKey k l) : dedupKey q.2 = k :=
  of_decide_eq_true (List.mem_filter.mp h).2

theorem chosenOf_spec (k : DedupKey) (l : List (Nat × LeadRecord))
    (h : withKey k l ≠ []) :
    ∃ q, chosenOf k l = some q ∧ q ∈ withKey k l := by
  cases hf : (withKey k l).find? hasNum with
  | some q =>
      refine ⟨q, ?_, List.mem_of_find?_eq_some hf⟩
      unfold chosenOf
      rw [hf]
  | none =>
      cases hl : withKey k l with
      | nil => exact absurd hl h
      | cons q t =>
          refine ⟨q, ?_, by simp [hl]⟩
          unfold chosenOf
          rw [hf, hl]
          rfl

theorem keptRecords_withKey (k : DedupKey) (l : List (Nat × LeadRecord)) :
    withKey k (keptRecords l) =
      (withKey k l).filter (fun p => decide (chosenOf k l = some p)) := by
  unfold keptRecords withKey
  rw [List.filter_filter, List.filter_filter]
  apply List.filter_congr
  intro p _
  by_cases hk : dedupKey p.2 = k <;> simp [hk]

theorem withKey_kept_eq (l : List (Nat × LeadRecord)) (k : DedupKey)
    (hnd : l.Nodup) (q : Nat × LeadRecord)
    (hq : chosenOf k l = some q) (hqm : q ∈ withKey k l) :
    withKey k (keptRecords l) = [q] := by
  rw [keptRecords_withKey]
  have hnd' : (withKey k l).Nodup := List.Nodup.sublist (List.filter_sublist l) hnd
  have hcongr : (withKey k l).filter (fun p => decide (chosenOf k l = some p)) =
      (withKey k l).filter (fun p => decide (p = q)) := by
    apply List.filter_congr
    intro p _
    rw [hq]
    by_cases hpq : p = q
    · simp [hpq]
    · have hqp : ¬(some q = some p) := by
        intro hc
        injection hc with hc'
        exact hpq hc'.symm
      simp [hpq, hqp]
  rw [hcongr]
  exact filter_eq_singleton_of_nodup _ q hnd' hqm

theorem removedWithKey_eq (l : List (Nat × LeadRecord)) (k : DedupKey) :
    removedWithKey k (removedRecords l) =
      ((withKey k l).filter (fun p => !decide (chosenOf k l = some p))).map
        (fun p => ⟨p, dedupKey p.2, chosenIdx (dedupKey p.2) l⟩) := by
  unfold removedWithKey removedRecords withKey
  rw [List.filter_map, List.filter_filter, List.filter_filter]
  congr 1
  apply List.filter_congr
  intro p _
  by_cases hk : dedupKey p.2 = k <;> simp [Function.comp, hk]

theorem removedWithKey_length (l : List (Nat × LeadRecord)) (k : DedupKey)
    (hnd : l.Nodup) (q : Nat × LeadRecord)
    (hq : chosenOf k l = some q) (hqm : q ∈ withKey k l) :
    (removedWithKey k (removedRecords l)).length = (withKey k l).length - 1 := by
  rw [removedWithKey_eq, List.length_map]
  have hnd' : (withKey k l).Nodup := List.Nodup.sublist (List.filter_sublist l) hnd
  have hcongr : (withKey k l).filter (fun p => !decide (chosenOf k l = some p)) =
      (withKey k l).filter (fun p => !decide (p = q)) := by
    apply List.filter_congr
    intro p _
    rw [hq]
    by_cases hpq : p = q
    · simp [hpq]
    · have hqp : ¬(some q = some p) := by
        intro hc
        injection hc with hc'
        exact hpq hc'.symm
      simp [hpq, hqp]
  rw [hcongr]
  exact length_filter_not_of_nodup _ q hnd' hqm

theorem chosen_mem_kept (l : List (Nat × LeadRecord)) (k : DedupKey)
    (q : Nat × LeadRecord) (hq : chosenOf k l = some q) (hqm : q ∈ withKey k l) :
    q ∈ keptRecords l := by
  unfold keptRecords
  rw [List.mem_filter]
  refine ⟨(List.mem_filter.mp hqm).1, ?_⟩
  rw [withKey_key k l q hqm]
  simp [hq]

/-- C5: the dedup selector partitions its input — for each occurring
dedup key exactly one record is kept, the other group members land in
`removed` at a count of group size minus one, each tagged with its own
key and the row index of a kept record of the same key; total kept plus
removed rows equals total input rows.  Size-1 groups therefore pass
through with nothing removed. -/
theorem dedup_completeness (rs : List LeadRecord) (k : DedupKey)
    (h : withKey k (indexFrom 0 rs) ≠ []) :
    (withKey k (dedupe rs).1).length = 1 ∧
    (removedWithKey k (dedupe rs).2).length = (withKey k (indexFrom 0 rs)).length - 1 ∧
    (dedupe rs).1.length + (dedupe rs).2.length = rs.length ∧
    (∀ rm ∈ (dedupe rs).2, rm.key = dedupKey rm.record.2 ∧
      ∃ p ∈ (dedupe rs).1, p.1 = rm.keptIdx ∧ dedupKey p.2 = rm.key) := by
  have hnd := indexFrom_nodup rs 0
  obtain ⟨q, hq, hqm⟩ := chosenOf_spec k (indexFrom 0 rs) h
  refine ⟨?_, ?_, ?_, ?_⟩
  · show (withKey k (keptRecords (indexFrom 0 rs))).length = 1
    rw [withKey_kept_eq (indexFrom 0 rs) k hnd q hq hqm]
    rfl
  · exact removedWithKey_length (indexFrom 0 rs) k hnd q hq hqm
  · show (keptRecords (indexFrom 0 rs)).length +
      (removedRecords (indexFrom 0 rs)).length = rs.length
    unfold keptRecords removedRecords
    rw [List.length_map, length_filter_add_not, indexFrom_length]
  · intro rm hrm
    obtain ⟨p, hp, rfl⟩ := List.mem_map.mp hrm
    refine ⟨rfl, ?_⟩
    have hpl : p ∈ indexFrom 0 rs := (List.mem_filter.mp hp).1
    have hpk : p ∈ withKey (dedupKey p.2) (indexFrom 0 rs) :=
      List.mem_filter.mpr ⟨hpl, by simp⟩
    obtain ⟨q', hq', hq'm⟩ :=
      chosenOf_spec (dedupKey p.2) (indexFrom 0 rs) (List.ne_nil_of_mem hpk)
    refine ⟨q', chosen_mem_kept (indexFrom 0 rs) (dedupKey p.2) q' hq' hq'm, ?_,
      withKey_key (dedupKey p.2) (indexFrom 0 rs) q' hq'm⟩
    show q'.1 = chosenIdx (dedupKey p.2) (indexFrom 0 rs)
    unfold chosenIdx
    rw [hq']

/-- Witness for `dedup_completeness`: two records sharing the key
`wKey`, one kept and one removed. -/
theorem dedup_completeness_witness :
    withKey wKey (indexFrom 0 [wRecA, wRecB]) ≠ [] ∧
    ((withKey wKey (dedupe [wRecA, wRecB]).1).length = 1 ∧
      (removedWithKey wKey (dedupe [wRecA, wRecB]).2).length =
        (withKey wKey (indexFrom 0 [wRecA, wRecB])).length - 1 ∧
      (dedupe [wRecA, wRecB]).1.length + (dedupe [wRecA, wRecB]).2.length = 2 ∧
      (∀ rm ∈ (dedupe [wRecA, wRecB]).2, rm.key = dedupKey rm.record.2 ∧
        ∃ p ∈ (dedupe [wRecA, wRecB]).1, p.1 = rm.keptIdx ∧ dedupKey p.2 = rm.key)) :=
  ⟨by decide, dedup_completeness [wRecA, wRecB] wKey (by decide)⟩

/-- C6: within a dedup group the kept record is the unique group member
returned for that key, it is drawn as-is from the input, and it is the
earliest group member with a resolved number — or, when no member has
one, the earliest group member outright. -/
theorem best_record_selection (rs : List LeadRecord) (k : DedupKey)
    (h : withKey k (indexFrom 0 rs) ≠ []) :
    ∃ p, withKey k (dedupe rs).1 = [p] ∧ p ∈ withKey k (indexFrom 0 rs) ∧
      ((hasNum p = true ∧
         ∃ pre post, withKey k (indexFrom 0 rs) = pre ++ p :: post ∧
           ∀ q ∈ pre, hasNum q = false) ∨
       ((∀ q ∈ withKey k (indexFrom 0 rs), hasNum q = false) ∧
         (withKey k (indexFrom 0 rs)).head? = some p)) := by
  have hnd := indexFrom_nodup rs 0
  obtain ⟨q, hq, hqm⟩ := chosenOf_spec k (indexFrom 0 rs) h
  refine ⟨q, withKey_kept_eq (indexFrom 0 rs) k hnd q hq hqm, hqm, ?_⟩
  unfold chosenOf at hq
  cases hf : (withKey k (indexFrom 0 rs)).find? hasNum with
  | some q' =>
      rw [hf] at hq
      have hq'q : q' = q := by injection hq
      subst hq'q
      left
      obtain ⟨hnum, pre, post, hsplit, hpre⟩ := List.find?_eq_some.mp hf
      exact ⟨hnum, pre, post, hsplit, fun a ha => by simpa using hpre a ha⟩
  | none =>
      rw [hf] at hq
      right
      refine ⟨?_, hq⟩
      intro x hx
      simpa using List.find?_eq_none.mp hf x hx

/-- Witness for `best_record_selection`: in the group of `wKey`,
record B (which has a number) wins over the earlier record A (which has
none). -/
theorem best_record_selection_witness :
    withKey wKey (indexFrom 0 [wRecA, wRecB]) ≠ [] ∧
    ∃ p, withKey wKey (dedupe [wRecA, wRecB]).1 = [p] ∧
      p ∈ withKey wKey (indexFrom 0 [wRecA, wRecB]) ∧
      ((hasNum p = true ∧
         ∃ pre post, withKey wKey (indexFrom 0 [wRecA, wRecB]) = pre ++ p :: post ∧
           ∀ q ∈ pre, hasNum q = false) ∨
       ((∀ q ∈ withKey wKey (indexFrom 0 [wRecA, wRecB]), hasNum q = false) ∧
         (withKey wKey (indexFrom 0 [wRecA, wRecB])).head? = some p)) :=
  ⟨by decide, best_record_selection [wRecA, wRecB] wKey (by decide)⟩

/-- C8: a row whose resolution ends in `NoDachNumber` is never silently
dropped by the dedup stage — it is kept, or removed only as a duplicate
of a kept record; retaining such rows is the identity policy, and only
the caller-selected drop policy filters them out. -/
theorem nodach_retention (rs : List LeadRecord) (p : Nat × LeadRecord)
    (hp : p ∈ indexFrom 0 rs)
    (hst : (resolve p.2).status = CallStatus.NoDachNumber) :
    (p ∈ (dedupe rs).1 ∨ ∃ rm ∈ (dedupe rs).2, rm.record = p) ∧
    (∀ rows : List LeadRecord, applyNoDachPolicy false rows = rows) ∧
    p.2 ∉ applyNoDachPolicy true rs := by
  refine ⟨?_, fun rows => rfl, ?_⟩
  · by_cases hc : chosenOf (dedupKey p.2) (indexFrom 0 rs) = some p
    · left
      show p ∈ keptRecords (indexFrom 0 rs)
      exact List.mem_filter.mpr ⟨hp, by simp [hc]⟩
    · right
      refine ⟨⟨p, dedupKey p.2, chosenIdx (dedupKey p.2) (indexFrom 0 rs)⟩, ?_, rfl⟩
      show _ ∈ removedRecords (indexFrom 0 rs)
      unfold removedRecords
      exact List.mem_map.mpr ⟨p, List.mem_filter.mpr ⟨hp, by simp [hc]⟩, rfl⟩
  · intro hmem
    have hmem' : p.2 ∈ rs.filter
        (fun r => !decide ((resolve r).status = CallStatus.NoDachNumber)) := hmem
    have := (List.mem_filter.mp hmem').2
    simp [hst] at this

/-- Witness for `nodach_retention`: the phoneless record `wRecA` alone
in the input. -/
theorem nodach_retention_witness :
    (0, wRecA) ∈ indexFrom 0 [wRecA] ∧
    (resolve wRecA).status = CallStatus.NoDachNumber ∧
    (((0, wRecA) ∈ (dedupe [wRecA]).1 ∨
       ∃ rm ∈ (dedupe [wRecA]).2, rm.record = (0, wRecA)) ∧
     (∀ rows : List LeadRecord, applyNoDachPolicy false rows = rows) ∧
     wRecA ∉ applyNoDachPolicy true [wRecA]) :=
  ⟨by decide, by decide, nodach_retention [wRecA] (0, wRecA) (by decide) (by decide)⟩

/-- C7: the excerpt is empty when the start marker is absent, and when
no end-marker occurrence strictly follows the start marker; when the
first start-marker occurrence is followed by an end-marker occurrence,
the excerpt is exactly the text strictly between the two markers,
trimmed of surrounding whitespace. -/
theorem extractExcerpt_eq_none (startM endM text : List Char)
    (h : findSub startM text = none) : extractExcerpt startM endM text = [] := by
  unfold extractExcerpt
  rw [h]

theorem extractExcerpt_eq_some (startM endM text : List Char) (i : Nat)
    (h : findSub startM text = some i) :
    extractExcerpt startM endM text =
      match findSub endM (text.drop (i + startM.length)) with
      | none => []
      | some j => trimChars ((text.drop (i + startM.length)).take j) := by
  unfold extractExcerpt
  rw [h]

theorem excerpt_boundary (startM endM text : String) :
    (findSub startM.data text.data = none →
      (extract startM endM text).excerpt = "") ∧
    (∀ i, findSub startM.data text.data = some i →
      findSub endM.data (text.data.drop (i + startM.data.length)) = none →
      (extract startM endM text).excerpt = "") ∧
    (∀ pre mid post : List Char,
      text.data = pre ++ startM.data ++ (mid ++ endM.data ++ post) →
      findSub startM.data text.data = some pre.length →
      findSub endM.data (mid ++ endM.data ++ post) = some mid.length →
      (extract startM endM text).excerpt = ⟨trimChars mid⟩) := by
  refine ⟨?_, ?_, ?_⟩
  · intro h
    show String.mk (extractExcerpt startM.data endM.data text.data) = ""
    rw [extractExcerpt_eq_none _ _ _ h]
  · intro i h1 h2
    show String.mk (extractExcerpt startM.data endM.data text.data) = ""
    rw [extractExcerpt_eq_some _ _ _ i h1, h2]
  · intro pre mid post htext h1 h2
    show String.mk (extractExcerpt startM.data endM.data text.data) = _
    rw [extractExcerpt_eq_some _ _ _ pre.length h1]
    have hdrop : text.data.drop (pre.length + startM.data.length) =
        mid ++ endM.data ++ post := by
      rw [htext]
      exact List.drop_left' (List.length_append _ _)
    rw [hdrop, h2]
    show String.mk (trimChars ((mid ++ endM.data ++ post).take mid.length)) =
      String.mk (trimChars mid)
    rw [List.append_assoc, List.take_left' rfl]

/-- Witness for `excerpt_boundary`: marker layouts on tiny concrete
strings. -/
theorem excerpt_boundary_witness :
    (findSub "S".data "abc".data = none ∧ (extract "S" "E" "abc").excerpt = "") ∧
    (findSub "S".data "EaSbc".data = some 2 ∧
      findSub "E".data ("EaSbc".data.drop (2 + "S".data.length)) = none ∧
      (extract "S" "E" "EaSbc").excerpt = "") ∧
    ("aSb cE d".data = ['a'] ++ "S".data ++ (['b', ' ', 'c'] ++ "E".data ++ [' ', 'd']) ∧
      (extract "S" "E" "aSb cE d").excerpt = ⟨trimChars ['b', ' ', 'c']⟩) :=
  ⟨⟨by decide, (excerpt_boundary "S" "E" "abc").1 (by decide)⟩,
   ⟨by decide, by decide,
     (excerpt_boundary "S" "E" "EaSbc").2.1 2 (by decide) (by decide)⟩,
   ⟨by decide,
     (excerpt_boundary "S" "E" "aSb cE d").2.2 ['a'] ['b', ' ', 'c'] [' ', 'd']
       (by decide) (by decide) (by decide)⟩⟩

/-- C9: after the internal per-file URL dedup, the notebook writes each
row of the target frame to exactly one of the two outputs — the
matching-URLs log when its URL occurs in the reference frame, the
cleaned output otherwise — so the two output lengths sum to the deduped
target frame's length. -/
theorem notebook_partition (dfA dfB : List NotebookRow) :
    (matching_urls (drop_duplicates dfA) (drop_duplicates dfB)).length +
      (df_result (drop_duplicates dfA) (drop_duplicates dfB)).length =
      (drop_duplicates dfA).length ∧
    (∀ r ∈ drop_duplicates dfA,
      (r.url ∈ urlsOf (drop_duplicates dfB) →
        r ∈ matching_urls (drop_duplicates dfA) (drop_duplicates dfB) ∧
        r ∉ df_result (drop_duplicates dfA) (drop_duplicates dfB)) ∧
      (r.url ∉ urlsOf (drop_duplicates dfB) →
        r ∈ df_result (drop_duplicates dfA) (drop_duplicates dfB) ∧
        r ∉ matching_urls (drop_duplicates dfA) (drop_duplicates dfB))) := by
  refine ⟨length_filter_add_not _ _, ?_⟩
  intro r hr
  constructor
  · intro hu
    refine ⟨List.mem_filter.mpr ⟨hr, by simp [hu]⟩, ?_⟩
    intro hmem
    have := (List.mem_filter.mp hmem).2
    simp [hu] at this
  · intro hu
    refine ⟨List.mem_filter.mpr ⟨hr, by simp [hu]⟩, ?_⟩
    intro hmem
    have := (List.mem_filter.mp hmem).2
    simp [hu] at this

/-- Witness for `notebook_partition`: a two-row target frame against a
one-row reference frame. -/
theorem notebook_partition_witness :
    wRow1 ∈ drop_duplicates [wRow1, wRow2] ∧
    wRow1.url ∉ urlsOf (drop_duplicates [wRow2]) ∧
    (wRow1 ∈ df_result (drop_duplicates [wRow1, wRow2]) (drop_duplicates [wRow2]) ∧
      wRow1 ∉ matching_urls (drop_duplicates [wRow1, wRow2]) (drop_duplicates [wRow2])) :=
  ⟨by decide, by decide,
    ((notebook_partition [wRow1, wRow2] [wRow2]).2 wRow1 (by decide)).2 (by decide)⟩

/-- C10: the notebook's internal URL dedup is idempotent — running
`drop_duplicates` on its own output returns that output unchanged. -/
theorem dedup_idempotent (rows : List NotebookRow) :
    drop_duplicates (drop_duplicates rows) = drop_duplicates rows := by
  have key : ∀ (l : List NotebookRow) (seen : List String),
      ddAux seen (ddAux seen l) = ddAux seen l := by
    intro l
    induction l with
    | nil => intro seen; rfl
    | cons r t ih =>
        intro seen
        by_cases h : r.url ∈ seen
        · simp [ddAux, h, ih seen]
        · simp [ddAux, h, ih (r.url :: seen)]
  exact key rows []

/-- Witness for `region_invariant` at the concrete record `wRec1`. -/
theorem region_invariant_witness :
    (resolve wRec1).selected_number ≠ "" ∧
    ∃ rest : List Char, rest.all Char.isDigit = true ∧
      (((resolve wRec1).selected_number = ⟨'+' :: '4' :: '9' :: rest⟩ ∧
          (resolve wRec1).region = some Region.DE) ∨
       ((resolve wRec1).selected_number = ⟨'+' :: '4' :: '1' :: rest⟩ ∧
          (resolve wRec1).region = some Region.CH) ∨
       ((resolve wRec1).selected_number = ⟨'+' :: '4' :: '3' :: rest⟩ ∧
          (resolve wRec1).region = some Region.AT)) :=
  ⟨by decide, region_invariant wRec1 (by decide)⟩

end LeadPipeline

